import Mathlib

/-!
Verification development for the `gb` interactive branch picker
(`src/main.rs`).  The mutable TUI state (`struct App`) and its methods are
shallowly embedded as pure Lean functions; Rust strings are embedded as
lists of characters, external effects (git enumeration, the `git checkout`
subprocess, the terminal device) as explicit parameters and event traces.
-/

/-- Rust `String` / `&str`, embedded as a list of characters. -/
abbrev Str := List Char

/-- Rust `str::to_lowercase` (locale-independent per-character mapping). -/
def strToLower (s : Str) : Str := s.map Char.toLower

/-- Rust `str::contains(needle)`: substring containment, searching every
suffix of the haystack for the needle as a leading segment. -/
def strContains : Str → Str → Bool
  | [], needle => needle.isEmpty
  | hay@(_ :: t), needle => needle.isPrefixOf hay || strContains t needle

/-- Embeds `struct GitBranch` from `src/main.rs`; the commit timestamp is
kept as an integer number of seconds. -/
structure GitBranch where
  name : Str
  is_current : Bool
  last_commit_time : Int
deriving DecidableEq, Repr

/-- Embeds `struct App` from `src/main.rs`.  `list_state` embeds the one
observable component of ratatui's `ListState`: the selected index. -/
structure App where
  branches : List GitBranch
  filtered_branches : List Nat
  list_state : Option Nat
  filter : Str
deriving DecidableEq, Repr

/-- The filtering predicate of `App::update_filter`:
`branch.name.to_lowercase().contains(&self.filter.to_lowercase())`. -/
def branchMatches (fil : Str) (b : GitBranch) : Bool :=
  strContains (strToLower b.name) (strToLower fil)

/-- Embeds `App::update_filter`: recompute `filtered_branches` from the
current filter (empty filter keeps every index), then reset the selection
to `Some 0` when the filtered list is non-empty and to `None` otherwise. -/
def App.update_filter (a : App) : App :=
  let fb :=
    if a.filter.isEmpty then
      List.range a.branches.length
    else
      ((a.branches.enum.filter fun p => branchMatches a.filter p.2).map Prod.fst)
  { a with
    filtered_branches := fb,
    list_state := if fb.isEmpty then none else some 0 }

/-- Embeds the pure part of `App::fetch_branches`: the comparator
`|a, b| b.last_commit_time.cmp(&a.last_commit_time)` rendered as the
boolean "a may stay before b" relation of a stable sort. -/
def branchLE (a b : GitBranch) : Bool :=
  decide (b.last_commit_time ≤ a.last_commit_time)

/-- Embeds `App::fetch_branches` applied to the list of enumerated local
branches (the repository enumeration itself is the input): stable sort
descending by timestamp, then truncate to the first 10. -/
def fetch_branches (enumerated : List GitBranch) : List GitBranch :=
  (enumerated.mergeSort branchLE).take 10

/-- Embeds `App::new` given the enumerated local branches: load the branch
set, then run the initial filter pass. -/
def App.new (enumerated : List GitBranch) : App :=
  App.update_filter
    { branches := fetch_branches enumerated
      filtered_branches := []
      list_state := none
      filter := [] }

/-- Embeds `App::next`: wrap forward through the filtered list; no-op when
the filtered list is empty. -/
def App.next (a : App) : App :=
  if a.filtered_branches.isEmpty then a
  else
    let i :=
      match a.list_state with
      | some i => if i ≥ a.filtered_branches.length - 1 then 0 else i + 1
      | none => 0
    { a with list_state := some i }

/-- Embeds `App::previous`: wrap backward through the filtered list; no-op
when the filtered list is empty. -/
def App.previous (a : App) : App :=
  if a.filtered_branches.isEmpty then a
  else
    let i :=
      match a.list_state with
      | some i => if i = 0 then a.filtered_branches.length - 1 else i - 1
      | none => 0
    { a with list_state := some i }

/-- Embeds `App::checkout_selected`.  The external `git checkout` call is
the parameter `runGit` (success flag and standard-error text per branch
name); the returned list records which invocations were performed. -/
def App.checkout_selected (a : App) (runGit : Str → Bool × Str) :
    List Str × Except Str Unit :=
  match a.list_state with
  | some selected =>
    match a.filtered_branches[selected]? with
    | some branch_idx =>
      match a.branches[branch_idx]? with
      | some branch =>
        if !branch.is_current then
          let out := runGit branch.name
          if !out.1 then ([branch.name], .error out.2)
          else ([branch.name], .ok ())
        else ([], .ok ())
      | none => ([], .ok ())
    | none => ([], .ok ())
  | none => ([], .ok ())

/-- Embeds `App::add_char`: push the character, recompute the filter. -/
def App.add_char (a : App) (c : Char) : App :=
  App.update_filter { a with filter := a.filter ++ [c] }

/-- Embeds `App::remove_char`: `String::pop` (drop the last character, a
no-op on the empty string), then recompute the filter. -/
def App.remove_char (a : App) : App :=
  App.update_filter { a with filter := a.filter.dropLast }

/-- Modelled from the spec: the Branch List Model contract `set_filter(text)`
(the code has no separate setter; a filter assignment is always followed by
`update_filter`, which this composition embeds). -/
def App.set_filter (a : App) (f : Str) : App :=
  App.update_filter { a with filter := f }

/-- Embeds the key codes distinguished by the `match key.code` dispatch in
`run_app` (`other` stands for every remaining crossterm key code). -/
inductive KeyCode
  | charK (c : Char)
  | esc
  | down
  | up
  | enter
  | backspace
  | other
deriving DecidableEq, Repr

/-- What the `run_app` loop body decides to do after a key press. -/
inductive KeyAction
  | quit
  | doCheckout
  | stay
deriving DecidableEq, Repr

/-- Embeds the `match key.code` arms of `run_app`, in source order: quit
keys first, then navigation (including the vi letters j and k), confirm,
backspace, and only then the catch-all printable-character arm. -/
def handle_key : KeyCode → App → App × KeyAction
  | .charK 'q', a => (a, .quit)
  | .esc, a => (a, .quit)
  | .down, a => (a.next, .stay)
  | .charK 'j', a => (a.next, .stay)
  | .up, a => (a.previous, .stay)
  | .charK 'k', a => (a.previous, .stay)
  | .enter, a => (a, .doCheckout)
  | .backspace, a => (a.remove_char, .stay)
  | .charK c, a => (a.add_char c, .stay)
  | .other, a => (a, .stay)

/-- One iteration of the `run_app` loop body: `none` means the loop
returned (quit, or checkout attempted and the loop ends), `some` carries
the state for the next iteration, and a failed checkout propagates as an
error like the `?` in `app.checkout_selected()?`. -/
def loop_step (a : App) (k : KeyCode) (runGit : Str → Bool × Str) :
    Except Str (Option App) :=
  match handle_key k a with
  | (_, .quit) => .ok none
  | (a1, .doCheckout) =>
    match (a1.checkout_selected runGit).2 with
    | .ok _ => .ok none
    | .error e => .error e
  | (a1, .stay) => .ok (some a1)

/-- The model and cursor mutations reachable from the session loop (plus a
bare `update_filter`, which the claims quantify over as well). -/
inductive Op
  | updF
  | addC (c : Char)
  | removeC
  | nextOp
  | prevOp
deriving DecidableEq, Repr

/-- Applies one mutation to the state. -/
def applyOp (a : App) : Op → App
  | .updF => a.update_filter
  | .addC c => a.add_char c
  | .removeC => a.remove_char
  | .nextOp => a.next
  | .prevOp => a.previous

/-- Runs a sequence of mutations left to right. -/
def runOps (a : App) (ops : List Op) : App := ops.foldl applyOp a

/-- The cursor invariant of the spec data model: the selection is
`None` exactly when the filtered list is empty, and otherwise a valid
index into it. -/
def CursorInv (a : App) : Prop :=
  (a.list_state = none ↔ a.filtered_branches = []) ∧
  ∀ i, a.list_state = some i → i < a.filtered_branches.length

/-- What the spec requires of the selection right after a filter change. -/
def CursorReset (a : App) : Prop :=
  a.list_state = if a.filtered_branches.isEmpty then none else some 0

/-- Observable terminal / process events of `main`, in order of
occurrence.  `printErr` is the `println!` after teardown; `runtimeReport`
is the Rust runtime reporting an error value propagated out of `main`
with `?`. -/
inductive TermEv
  | enableRaw
  | enterAlt
  | disableRaw
  | leaveAlt
  | showCursor
  | printErr (msg : Str)
  | runtimeReport (msg : Str)
deriving DecidableEq, Repr

/-- Embeds `main`, with the terminal primitives assumed to succeed: the
outcome of `App::new()` and of `run_app` are parameters, the first
component is the event trace, and the boolean is true exactly when the
process exits with a success status.  When `App::new()?` fails the error
propagates out of `main` before `disable_raw_mode` is reached, so the
runtime reports it and exits unsuccessfully. -/
def mainModel (newApp : Except Str App) (runApp : App → Except Str Unit) :
    List TermEv × Bool :=
  match newApp with
  | .error e => ([.enableRaw, .enterAlt, .runtimeReport e], false)
  | .ok app =>
    match runApp app with
    | .ok _ =>
      ([.enableRaw, .enterAlt, .disableRaw, .leaveAlt, .showCursor], true)
    | .error e =>
      ([.enableRaw, .enterAlt, .disableRaw, .leaveAlt, .showCursor,
        .printErr e], true)

/-- Index-collecting filter: the positions (counted from `n`) of the
elements satisfying `P`, in order. -/
def idxsFrom {α : Type _} (P : α → Bool) : Nat → List α → List Nat
  | _, [] => []
  | n, b :: bs => if P b then n :: idxsFrom P (n + 1) bs else idxsFrom P (n + 1) bs

/-- Stated from the spec's words, for comparison with `App.update_filter`:
the ordered sequence of indices of branches whose lowercased name contains
the lowercased filter as a substring. -/
def specFilteredIdxs (fil : Str) (bs : List GitBranch) : List Nat :=
  idxsFrom (branchMatches fil) 0 bs

theorem enumFrom_filter_map {α : Type _} (P : α → Bool) (l : List α) :
    ∀ n, ((List.enumFrom n l).filter fun p => P p.2).map Prod.fst = idxsFrom P n l := by
  induction l with
  | nil => intro n; rfl
  | cons b bs ih =>
    intro n
    by_cases h : P b
    · simp [List.enumFrom, List.filter_cons, idxsFrom, h, ih]
    · simp [List.enumFrom, List.filter_cons, idxsFrom, h, ih]

theorem mem_idxsFrom {α : Type _} (P : α → Bool) (l : List α) :
    ∀ n i, i ∈ idxsFrom P n l ↔ n ≤ i ∧ ∃ a, l[i - n]? = some a ∧ P a = true := by
  induction l with
  | nil => intro n i; simp [idxsFrom]
  | cons b bs ih =>
    intro n i
    by_cases h : P b
    · simp only [idxsFrom, if_pos h, List.mem_cons]
      constructor
      · rintro (rfl | hmem)
        · exact ⟨Nat.le_refl _, b, by simp, h⟩
        · obtain ⟨hle, a, ha, hPa⟩ := (ih (n + 1) i).1 hmem
          refine ⟨by omega, a, ?_, hPa⟩
          have hi : i - n = (i - (n + 1)) + 1 := by omega
          rw [hi, List.getElem?_cons_succ]
          exact ha
      · rintro ⟨hle, a, ha, hPa⟩
        rcases Nat.eq_or_lt_of_le hle with heq | hlt
        · exact Or.inl heq.symm
        · refine Or.inr ((ih (n + 1) i).2 ⟨by omega, a, ?_, hPa⟩)
          have hi : i - n = (i - (n + 1)) + 1 := by omega
          rw [hi, List.getElem?_cons_succ] at ha
          exact ha
    · simp only [idxsFrom, if_neg h]
      rw [ih (n + 1) i]
      constructor
      · rintro ⟨hle, a, ha, hPa⟩
        refine ⟨by omega, a, ?_, hPa⟩
        have hi : i - n = (i - (n + 1)) + 1 := by omega
        rw [hi, List.getElem?_cons_succ]
        exact ha
      · rintro ⟨hle, a, ha, hPa⟩
        rcases Nat.eq_or_lt_of_le hle with heq | hlt
        · subst heq
          simp only [Nat.sub_self, List.getElem?_cons_zero, Option.some.injEq] at ha
          subst ha
          exact absurd hPa (by simpa using h)
        · refine ⟨by omega, a, ?_, hPa⟩
          have hi : i - n = (i - (n + 1)) + 1 := by omega
          rw [hi, List.getElem?_cons_succ] at ha
          exact ha

theorem idxsFrom_pairwise {α : Type _} (P : α → Bool) (l : List α) :
    ∀ n, (idxsFrom P n l).Pairwise (· < ·) := by
  induction l with
  | nil => intro n; simp [idxsFrom]
  | cons b bs ih =>
    intro n
    by_cases h : P b
    · simp only [idxsFrom, if_pos h]
      refine List.Pairwise.cons ?_ (ih (n + 1))
      intro j hj
      have := ((mem_idxsFrom P bs (n + 1) j).1 hj).1
      omega
    · simpa [idxsFrom, h] using ih (n + 1)

theorem idxsFrom_all {α : Type _} (P : α → Bool) :
    ∀ (l : List α) (n : Nat), (∀ a ∈ l, P a = true) →
      idxsFrom P n l = List.range' n l.length := by
  intro l
  induction l with
  | nil => intro n _; rfl
  | cons b bs ih =>
    intro n hP
    have hb : P b = true := hP b (List.mem_cons_self b bs)
    simp only [idxsFrom, if_pos hb, List.length_cons, List.range'_succ]
    congr 1
    exact ih (n + 1) fun a ha => hP a (List.mem_cons_of_mem b ha)

theorem strContains_nil (hay : Str) : strContains hay [] = true := by
  induction hay with
  | nil => rfl
  | cons c t ih => simp [strContains, List.isPrefixOf, ih]

theorem branchMatches_nil (b : GitBranch) : branchMatches [] b = true := by
  simp [branchMatches, strToLower, strContains_nil]

theorem update_filter_filtered (a : App) :
    (a.update_filter).filtered_branches =
      if a.filter.isEmpty then List.range a.branches.length
      else ((a.branches.enum.filter fun p => branchMatches a.filter p.2).map Prod.fst) := rfl

theorem update_filter_branches (a : App) :
    (a.update_filter).branches = a.branches := rfl

theorem update_filter_filter (a : App) :
    (a.update_filter).filter = a.filter := rfl

theorem update_filter_state (a : App) :
    (a.update_filter).list_state =
      if (a.update_filter).filtered_branches.isEmpty then none else some 0 := rfl

theorem update_filter_eq_spec (a : App) :
    (a.update_filter).filtered_branches = specFilteredIdxs a.filter a.branches := by
  rw [update_filter_filtered, specFilteredIdxs]
  by_cases h : a.filter.isEmpty
  · rw [if_pos h]
    have hfil : a.filter = [] := by simpa using h
    rw [idxsFrom_all _ a.branches 0 (fun b _ => by rw [hfil]; exact branchMatches_nil b)]
    exact List.range_eq_range' a.branches.length
  · rw [if_neg h]
    rw [show a.branches.enum = List.enumFrom 0 a.branches from rfl]
    exact enumFrom_filter_map _ a.branches 0

/-- C1: for every branch set and every filter string, the Filtered Index
Set computed by `update_filter` is exactly the ordered sequence of indices
of branches whose lowercased name contains the lowercased filter as a
substring, preserving relative order (the index list is strictly
increasing); the empty filter selects every branch. -/
theorem update_filter_exact (a : App) :
    (a.update_filter).filtered_branches = specFilteredIdxs a.filter a.branches ∧
    (∀ i, i ∈ (a.update_filter).filtered_branches ↔
      ∃ b, a.branches[i]? = some b ∧ branchMatches a.filter b = true) ∧
    (a.update_filter).filtered_branches.Pairwise (· < ·) ∧
    (a.filter = [] →
      (a.update_filter).filtered_branches = List.range a.branches.length) := by
  refine ⟨update_filter_eq_spec a, ?_, ?_, ?_⟩
  · intro i
    rw [update_filter_eq_spec a, specFilteredIdxs, mem_idxsFrom]
    simp
  · rw [update_filter_eq_spec a]
    exact idxsFrom_pairwise _ _ 0
  · intro h
    rw [update_filter_filtered]
    simp [h]

/-- Branch fixtures taken from the spec's worked scenario. -/
def bFeatureY : GitBranch :=
  { name := ['f', 'e', 'a', 't', 'u', 'r', 'e', '-', 'y'],
    is_current := false, last_commit_time := 1000000 }

/-- Second scenario branch. -/
def bFeatureX : GitBranch :=
  { name := ['f', 'e', 'a', 't', 'u', 'r', 'e', '-', 'x'],
    is_current := false, last_commit_time := 500000 }

/-- Third scenario branch, the currently checked out one. -/
def bMain : GitBranch :=
  { name := ['m', 'a', 'i', 'n'], is_current := true, last_commit_time := 100 }

/-- Concrete state with the scenario branches and the filter "fe". -/
def exFilterApp : App :=
  { branches := [bFeatureY, bFeatureX, bMain],
    filtered_branches := [0, 1, 2],
    list_state := some 0,
    filter := ['f', 'e'] }

theorem update_filter_exact_witness :
    (exFilterApp.update_filter).filtered_branches
        = specFilteredIdxs exFilterApp.filter exFilterApp.branches ∧
    (2 ∈ (exFilterApp.update_filter).filtered_branches ↔
      ∃ b, exFilterApp.branches[2]? = some b ∧
        branchMatches exFilterApp.filter b = true) ∧
    (exFilterApp.update_filter).filtered_branches.Pairwise (· < ·) :=
  ⟨(update_filter_exact exFilterApp).1,
    (update_filter_exact exFilterApp).2.1 2,
    (update_filter_exact exFilterApp).2.2.1⟩

theorem next_empty (a : App) (h : a.filtered_branches = []) : a.next = a := by
  simp [App.next, h]

theorem previous_empty (a : App) (h : a.filtered_branches = []) : a.previous = a := by
  simp [App.previous, h]

theorem next_mod (a : App) (m : Nat) (hs : a.list_state = some m)
    (hm : m < a.filtered_branches.length) :
    a.next = { a with list_state := some ((m + 1) % a.filtered_branches.length) } := by
  have hne : a.filtered_branches.isEmpty = false := by
    cases hfb : a.filtered_branches with
    | nil => rw [hfb] at hm; simp at hm
    | cons x xs => simp
  simp only [App.next, hne, Bool.false_eq_true, if_false, hs]
  congr 2
  by_cases hm1 : m ≥ a.filtered_branches.length - 1
  · rw [if_pos hm1]
    have hlen : m + 1 = a.filtered_branches.length := by omega
    rw [hlen, Nat.mod_self]
  · rw [if_neg hm1, Nat.mod_eq_of_lt (by omega)]

theorem previous_sel (a : App) (m : Nat) (hs : a.list_state = some m)
    (hm : m < a.filtered_branches.length) :
    a.previous = { a with list_state := some (if m = 0 then a.filtered_branches.length - 1 else m - 1) } := by
  have hne : a.filtered_branches.isEmpty = false := by
    cases hfb : a.filtered_branches with
    | nil => rw [hfb] at hm; simp at hm
    | cons x xs => simp
  simp only [App.previous, hne, Bool.false_eq_true, if_false, hs]

theorem next_iterate (a : App) (m : Nat) (hs : a.list_state = some m)
    (hm : m < a.filtered_branches.length) :
    ∀ k, App.next^[k] a =
      { a with list_state := some ((m + k) % a.filtered_branches.length) } := by
  intro k
  induction k with
  | zero =>
    simp only [Function.iterate_zero, id_eq, Nat.add_zero, Nat.mod_eq_of_lt hm]
    cases a with
    | mk b fb ls fil =>
      simp only [App.list_state] at hs
      rw [hs]
  | succ k ih =>
    rw [Function.iterate_succ_apply', ih]
    have hstep := next_mod
      { a with list_state := some ((m + k) % a.filtered_branches.length) }
      ((m + k) % a.filtered_branches.length) rfl
      (show (m + k) % a.filtered_branches.length < a.filtered_branches.length
        from Nat.mod_lt _ (by omega))
    rw [hstep]
    congr 2
    rw [Nat.mod_add_mod, Nat.add_assoc]

/-- C2: on a non-empty filtered list with a valid cursor, `next` and
`previous` each land inside `[0, N)`; `next` wraps from the last index to
0 and `previous` from 0 to `N - 1`; `next` iterated `N` times returns to
the original position; both operations are no-ops when the filtered list
is empty. -/
theorem nav_spec (a : App) :
    (a.filtered_branches = [] → a.next = a ∧ a.previous = a) ∧
    ∀ i, a.list_state = some i → i < a.filtered_branches.length →
      (∃ j, (a.next).list_state = some j ∧ j < a.filtered_branches.length) ∧
      (∃ j, (a.previous).list_state = some j ∧ j < a.filtered_branches.length) ∧
      (i = a.filtered_branches.length - 1 → (a.next).list_state = some 0) ∧
      (i = 0 → (a.previous).list_state = some (a.filtered_branches.length - 1)) ∧
      (App.next^[a.filtered_branches.length] a).list_state = some i := by
  constructor
  · intro h
    exact ⟨next_empty a h, previous_empty a h⟩
  · intro i hs hi
    have hnext := next_mod a i hs hi
    have hprev := previous_sel a i hs hi
    refine ⟨⟨(i + 1) % a.filtered_branches.length, ?_, Nat.mod_lt _ (by omega)⟩,
      ?_, ?_, ?_, ?_⟩
    · rw [hnext]
    · refine ⟨if i = 0 then a.filtered_branches.length - 1 else i - 1, ?_, ?_⟩
      · rw [hprev]
      · by_cases h0 : i = 0
        · simp only [if_pos h0]; omega
        · simp only [if_neg h0]; omega
    · intro hlast
      rw [hnext]
      have hz : (i + 1) % a.filtered_branches.length = 0 := by
        have hlen : i + 1 = a.filtered_branches.length := by omega
        rw [hlen, Nat.mod_self]
      rw [hz]
    · intro h0
      rw [hprev, if_pos h0]
    · rw [next_iterate a i hs hi a.filtered_branches.length,
        Nat.add_mod_right, Nat.mod_eq_of_lt hi]

/-- Concrete state with the cursor on the last filtered entry. -/
def exNavApp : App :=
  { branches := [bFeatureY, bFeatureX, bMain],
    filtered_branches := [0, 1, 2],
    list_state := some 2,
    filter := [] }

theorem nav_spec_witness :
    (∃ j, (exNavApp.next).list_state = some j ∧
      j < exNavApp.filtered_branches.length) ∧
    (exNavApp.next).list_state = some 0 ∧
    (App.next^[exNavApp.filtered_branches.length] exNavApp).list_state = some 2 := by
  have h := (nav_spec exNavApp).2 2 rfl (by decide)
  exact ⟨h.1, h.2.2.1 (by decide), h.2.2.2.2⟩

theorem branchLE_trans (a b c : GitBranch) :
    branchLE a b = true → branchLE b c = true → branchLE a c = true := by
  simp only [branchLE, decide_eq_true_eq]
  omega

theorem branchLE_total (a b : GitBranch) : (branchLE a b || branchLE b a) = true := by
  simp only [branchLE, Bool.or_eq_true, decide_eq_true_eq]
  omega

/-- C3: the loaded Branch Set has at most 10 entries, is sorted descending
by last-activity timestamp, truncation to 10 happens after the (stable)
sort and before any filtering, and any pair of branches in enumeration
order whose timestamps allow that order (in particular any tie) keeps its
relative order through the sort. -/
theorem fetch_branches_spec (l : List GitBranch) :
    (fetch_branches l).length ≤ 10 ∧
    (fetch_branches l).Pairwise
      (fun a b => b.last_commit_time ≤ a.last_commit_time) ∧
    fetch_branches l = (l.mergeSort branchLE).take 10 ∧
    (l.mergeSort branchLE).Perm l ∧
    (App.new l).branches = fetch_branches l ∧
    ∀ a b : GitBranch, List.Sublist [a, b] l →
      b.last_commit_time ≤ a.last_commit_time →
      List.Sublist [a, b] (l.mergeSort branchLE) := by
  refine ⟨?_, ?_, rfl, List.mergeSort_perm l branchLE, rfl, ?_⟩
  · exact List.length_take_le 10 (l.mergeSort branchLE)
  · have hs := List.sorted_mergeSort branchLE_trans branchLE_total l
    have ht := List.Pairwise.sublist (List.take_sublist 10 _) hs
    exact ht.imp fun h => by simpa [branchLE, decide_eq_true_eq] using h
  · intro a b hsub hle
    refine List.sublist_mergeSort branchLE_trans branchLE_total ?_ hsub
    simp [List.pairwise_cons, branchLE, hle]

/-- Branch tying with `bFeatureX` on the timestamp, for the stability
witness. -/
def bDev : GitBranch :=
  { name := ['d', 'e', 'v'], is_current := false, last_commit_time := 500000 }

/-- Concrete enumeration order, with a timestamp tie between `bFeatureX`
and `bDev`. -/
def exLoadList : List GitBranch := [bMain, bFeatureX, bDev, bFeatureY]

theorem fetch_branches_spec_witness :
    (fetch_branches exLoadList).length ≤ 10 ∧
    List.Sublist [bFeatureX, bDev] (exLoadList.mergeSort branchLE) :=
  ⟨(fetch_branches_spec exLoadList).1,
    (fetch_branches_spec exLoadList).2.2.2.2.2 bFeatureX bDev (by decide) (by decide)⟩

/-- C4: every filter mutation (set, append a character, remove the last
character) synchronously leaves the cursor at `Some 0` when the new
filtered list is non-empty and at `None` when it is empty. -/
theorem filter_mutation_reset (a : App) (f : Str) (c : Char) :
    CursorReset (a.set_filter f) ∧ CursorReset (a.add_char c) ∧
    CursorReset a.remove_char :=
  ⟨update_filter_state _, update_filter_state _, update_filter_state _⟩

theorem update_filter_inv (a : App) : CursorInv (a.update_filter) := by
  have h := update_filter_state a
  constructor
  · rw [h]
    by_cases hfb : (a.update_filter).filtered_branches.isEmpty
    · simp only [hfb, if_true]
      simpa using hfb
    · simp only [hfb, Bool.false_eq_true, if_false]
      constructor
      · intro heq; exact absurd heq (by simp)
      · intro heq; exact absurd (by simp [heq] : (a.update_filter).filtered_branches.isEmpty = true) (by simpa using hfb)
  · intro i hi
    rw [h] at hi
    by_cases hfb : (a.update_filter).filtered_branches.isEmpty
    · simp [hfb] at hi
    · simp only [hfb, Bool.false_eq_true, if_false, Option.some.injEq] at hi
      have hne : (a.update_filter).filtered_branches ≠ [] := by simpa using hfb
      have := List.length_pos.2 hne
      omega

theorem next_inv (a : App) (h : CursorInv a) : CursorInv a.next := by
  by_cases hfb : a.filtered_branches = []
  · rw [next_empty a hfb]; exact h
  · have hlen : 0 < a.filtered_branches.length := List.length_pos.2 hfb
    have hne : a.filtered_branches.isEmpty = false := by simpa using hfb
    constructor
    · simp only [App.next, hne, Bool.false_eq_true, if_false]
      simp [hfb]
    · intro i hi
      simp only [App.next, hne, Bool.false_eq_true, if_false] at hi ⊢
      cases hls : a.list_state with
      | none => simp [hls] at hi; omega
      | some m =>
        have hm := h.2 m hls
        simp only [hls, Option.some.injEq] at hi
        rw [← hi]
        split
        · omega
        · omega

theorem previous_inv (a : App) (h : CursorInv a) : CursorInv a.previous := by
  by_cases hfb : a.filtered_branches = []
  · rw [previous_empty a hfb]; exact h
  · have hlen : 0 < a.filtered_branches.length := List.length_pos.2 hfb
    have hne : a.filtered_branches.isEmpty = false := by simpa using hfb
    constructor
    · simp only [App.previous, hne, Bool.false_eq_true, if_false]
      simp [hfb]
    · intro i hi
      simp only [App.previous, hne, Bool.false_eq_true, if_false] at hi ⊢
      cases hls : a.list_state with
      | none => simp [hls] at hi; omega
      | some m =>
        have hm := h.2 m hls
        simp only [hls, Option.some.injEq] at hi
        rw [← hi]
        split
        · omega
        · omega

theorem applyOp_inv (a : App) (h : CursorInv a) : ∀ op, CursorInv (applyOp a op)
  | .updF => update_filter_inv a
  | .addC _ => update_filter_inv _
  | .removeC => update_filter_inv _
  | .nextOp => next_inv a h
  | .prevOp => previous_inv a h

theorem runOps_inv (ops : List Op) : ∀ a, CursorInv a → CursorInv (runOps a ops) := by
  induction ops with
  | nil => intro a h; exact h
  | cons op ops ih => intro a h; exact ih (applyOp a op) (applyOp_inv a h op)

/-- C5: in every state reachable from the freshly loaded state by any
sequence of `update_filter`, `add_char`, `remove_char`, `next`, and
`previous`, the cursor is `None` exactly when the Filtered Index Set is
empty, and otherwise a valid index into it. -/
theorem reachable_cursor_inv (enumerated : List GitBranch) (ops : List Op) :
    CursorInv (runOps (App.new enumerated) ops) :=
  runOps_inv ops (App.new enumerated) (update_filter_inv _)

theorem reachable_cursor_inv_witness :
    CursorInv (runOps (App.new exLoadList) [Op.nextOp, Op.addC 'f']) :=
  reachable_cursor_inv exLoadList [Op.nextOp, Op.addC 'f']

/-- C6: when the selected branch is the current branch, `checkout_selected`
performs no external invocation (the invocation record is empty) and
returns success. -/
theorem checkout_current_noop (a : App) (runGit : Str → Bool × Str)
    (s bi : Nat) (b : GitBranch)
    (hs : a.list_state = some s)
    (hf : a.filtered_branches[s]? = some bi)
    (hb : a.branches[bi]? = some b)
    (hcur : b.is_current = true) :
    a.checkout_selected runGit = ([], Except.ok ()) := by
  simp [App.checkout_selected, hs, hf, hb, hcur]

theorem checkout_current_noop_witness :
    exNavApp.checkout_selected (fun _ => (true, [])) = ([], Except.ok ()) :=
  checkout_current_noop exNavApp (fun _ => (true, [])) 2 2 bMain rfl rfl rfl rfl

/-- C10: pressing confirm while the filtered list is empty leads to a
checkout with no external invocation that returns success, and the session
loop ends normally. -/
theorem confirm_empty_noop (a : App) (runGit : Str → Bool × Str)
    (hfb : a.filtered_branches = []) :
    a.checkout_selected runGit = ([], Except.ok ()) ∧
    loop_step a KeyCode.enter runGit = Except.ok none := by
  have hc : a.checkout_selected runGit = ([], Except.ok ()) := by
    cases hls : a.list_state with
    | none => simp [App.checkout_selected, hls]
    | some s => simp [App.checkout_selected, hls, hfb]
  refine ⟨hc, ?_⟩
  simp only [loop_step, handle_key, hc]

/-- Concrete state in which nothing matches the filter. -/
def exEmptyApp : App :=
  { branches := [bMain], filtered_branches := [], list_state := none,
    filter := ['z'] }

theorem confirm_empty_noop_witness :
    exEmptyApp.checkout_selected (fun _ => (true, [])) = ([], Except.ok ()) ∧
    loop_step exEmptyApp KeyCode.enter (fun _ => (true, [])) = Except.ok none :=
  confirm_empty_noop exEmptyApp (fun _ => (true, [])) rfl

/-- Concrete reachable state: empty filter, cursor moved off 0 by a `next`
press. -/
def exIdleApp : App :=
  { branches := [bFeatureY, bFeatureX, bMain],
    filtered_branches := [0, 1, 2],
    list_state := some 1,
    filter := [] }

/-- C8 counterexample: `remove_char` on an empty filter is not a full
no-op — it resets the cursor from `Some 1` back to `Some 0`. -/
theorem remove_char_not_id :
    exIdleApp.filter = [] ∧
    exIdleApp.remove_char ≠ exIdleApp ∧
    (exIdleApp.remove_char).list_state = some 0 ∧
    exIdleApp.list_state = some 1 := by
  refine ⟨rfl, ?_, by decide, rfl⟩
  decide

/-- C8 amended: `remove_char` on an empty filter does not error, keeps the
filter text, branch set (and, in states where the filtered list already
lists every branch, the Filtered Index Set) unchanged, but resets the
cursor like every filter mutation instead of preserving it. -/
theorem remove_char_empty_amended (a : App) (hf : a.filter = []) :
    (a.remove_char).filter = a.filter ∧
    (a.remove_char).branches = a.branches ∧
    (a.remove_char).filtered_branches = List.range a.branches.length ∧
    (a.filtered_branches = List.range a.branches.length →
      (a.remove_char).filtered_branches = a.filtered_branches) ∧
    CursorReset a.remove_char := by
  have hd : a.filter.dropLast = a.filter := by rw [hf]; rfl
  have hfb : (a.remove_char).filtered_branches = List.range a.branches.length := by
    rw [show a.remove_char
        = App.update_filter { a with filter := a.filter.dropLast } from rfl,
      update_filter_filtered]
    simp [hf]
  refine ⟨?_, rfl, hfb, ?_, update_filter_state _⟩
  · rw [show a.remove_char
        = App.update_filter { a with filter := a.filter.dropLast } from rfl,
      update_filter_filter]
    exact hd
  · intro hc
    rw [hfb, hc]

theorem remove_char_empty_amended_witness :
    (exIdleApp.remove_char).filter = exIdleApp.filter ∧
    (exIdleApp.remove_char).filtered_branches
      = List.range exIdleApp.branches.length :=
  ⟨(remove_char_empty_amended exIdleApp rfl).1,
    (remove_char_empty_amended exIdleApp rfl).2.2.1⟩

/-- C7 counterexample: when `App::new()` fails (for example the current
directory is not a repository), the error propagates out of `main` before
`disable_raw_mode` / `LeaveAlternateScreen` are reached, so the terminal
is not torn down and the process exit status is not success. -/
theorem startup_error_counterexample :
    (mainModel (Except.error ['e']) fun _ => Except.ok ()).2 = false ∧
    TermEv.disableRaw ∉ (mainModel (Except.error ['e']) fun _ => Except.ok ()).1 ∧
    TermEv.leaveAlt ∉ (mainModel (Except.error ['e']) fun _ => Except.ok ()).1 := by
  refine ⟨rfl, ?_, ?_⟩ <;> decide

/-- C7 amended: after a successful startup the terminal is torn down on
every exit path before any error is surfaced, a session error is printed
exactly once after teardown, and the process still exits successfully;
a fatal startup error instead propagates before teardown, is reported by
the runtime, and the exit status is failure. -/
theorem main_teardown_spec (app : App) (run : App → Except Str Unit) (e : Str) :
    (run app = Except.ok () → mainModel (Except.ok app) run =
      ([TermEv.enableRaw, TermEv.enterAlt, TermEv.disableRaw, TermEv.leaveAlt,
        TermEv.showCursor], true)) ∧
    (run app = Except.error e → mainModel (Except.ok app) run =
      ([TermEv.enableRaw, TermEv.enterAlt, TermEv.disableRaw, TermEv.leaveAlt,
        TermEv.showCursor, TermEv.printErr e], true)) ∧
    mainModel (Except.error e) run =
      ([TermEv.enableRaw, TermEv.enterAlt, TermEv.runtimeReport e], false) := by
  refine ⟨?_, ?_, rfl⟩ <;> intro h <;> simp [mainModel, h]

theorem main_teardown_spec_witness :
    mainModel (Except.ok exEmptyApp) (fun _ => Except.error ['x']) =
      ([TermEv.enableRaw, TermEv.enterAlt, TermEv.disableRaw, TermEv.leaveAlt,
        TermEv.showCursor, TermEv.printErr ['x']], true) :=
  (main_teardown_spec exEmptyApp (fun _ => Except.error ['x']) ['x']).2.1 rfl

/-- C9: a printable character other than the reserved letters is appended
to the filter text, while the quit keys end the loop without a checkout,
the arrow keys and the vi letters move the cursor, and backspace removes
the last filter character. -/
theorem key_dispatch_spec (a : App) (c : Char)
    (hq : c ≠ 'q') (hj : c ≠ 'j') (hk : c ≠ 'k') :
    handle_key (KeyCode.charK c) a = (a.add_char c, KeyAction.stay) ∧
    handle_key (KeyCode.charK 'q') a = (a, KeyAction.quit) ∧
    handle_key KeyCode.esc a = (a, KeyAction.quit) ∧
    loop_step a (KeyCode.charK 'q') (fun _ => (true, [])) = Except.ok none ∧
    handle_key KeyCode.down a = (a.next, KeyAction.stay) ∧
    handle_key (KeyCode.charK 'j') a = (a.next, KeyAction.stay) ∧
    handle_key KeyCode.up a = (a.previous, KeyAction.stay) ∧
    handle_key (KeyCode.charK 'k') a = (a.previous, KeyAction.stay) ∧
    handle_key KeyCode.backspace a = (a.remove_char, KeyAction.stay) := by
  refine ⟨?_, rfl, rfl, rfl, rfl, rfl, rfl, rfl, rfl⟩
  simp [handle_key, hq, hj, hk]

theorem key_dispatch_spec_witness :
    handle_key (KeyCode.charK 'f') exFilterApp
      = (exFilterApp.add_char 'f', KeyAction.stay) ∧
    handle_key (KeyCode.charK 'q') exFilterApp = (exFilterApp, KeyAction.quit) :=
  ⟨(key_dispatch_spec exFilterApp 'f' (by decide) (by decide) (by decide)).1,
    (key_dispatch_spec exFilterApp 'f' (by decide) (by decide) (by decide)).2.1⟩
